import Mathlib

/-!
Shallow embedding of the jump-rope frequency-estimation pipeline
(src/oscillator.rs, src/frequency.rs, src/frequency_tracker.rs,
src/frame.rs, src/prelude.rs) and verification of its specification.

Machine integers: the pixel values are `u8` and all index arithmetic is
`usize`; both are modelled as `ℕ` (the sums involved stay far below any
word size, the one wrapping cast `as u8` is modelled by an explicit
`% 256`).  The `f32` values flowing through the running statistics, the
FFT magnitudes and the frequency interpolation are modelled as `ℚ`; the
claims treated here are about the algorithmic structure of those
computations, and the one place where IEEE semantics matters for a
branch (a `0.0 / 0.0 = NaN` comparing false against the agreement
ratio) coincides with the rational convention `0 / 0 = 0`, which also
compares false; this is noted at the definition.
-/

/- ---------------------------------------------------------------- -/
/- Constants from src/prelude.rs                                     -/
/- ---------------------------------------------------------------- -/

/-- `MIN_OSCILLATORS_AGREEMENT_RATIO: f32 = 1.0 / 2.0` from prelude.rs. -/
def minOscillatorsAgreement : ℚ := 1 / 2

/-- `VIEW_SIZE: u32 = 2` from prelude.rs. -/
def VIEW_SIZE : ℕ := 2

/-- `REPORT_FREQUENCY_AFTER_MS: usize = 250` from prelude.rs. -/
def REPORT_FREQUENCY_AFTER_MS : ℕ := 250

/-- `MAGNITUDE_THRESHOLD: f32 = 5.0` from prelude.rs. -/
def MAGNITUDE_THRESHOLD : ℚ := 5

/- ---------------------------------------------------------------- -/
/- Oscillator (src/oscillator.rs)                                    -/
/- ---------------------------------------------------------------- -/

/-- The mutable fields of `Oscillator` relevant to its state evolution:
`state: Vec<u8>`, `average: f32`, `variance: f32`.  The `fft` plan and the
`window_fn` table only contribute their size `window = window_fn.size()`,
which appears as an explicit parameter of the operations below. -/
structure Oscillator where
  state : List ℕ
  average : ℚ
  variance : ℚ
deriving DecidableEq

/-- `Oscillator::push_pixel_value` (oscillator.rs:49-79).  The Rust
`match self.state.len().cmp(&self.window_fn.size())` is rendered as the
equivalent two-way `if` on `<` and `=`.  In the `Equal` arm the code
computes `fold(0.0, |acc, v| acc + (v - average).abs()).abs() / window`;
the outer `.abs()` is kept. -/
def pushPixelValue (window : ℕ) (o : Oscillator) (value : ℕ) : Oscillator :=
  let state := o.state ++ [value]
  if state.length < window then
    { o with state := state }
  else if state.length = window then
    let average := (state.map (fun v => (v : ℚ))).sum / (window : ℚ)
    let variance :=
      |(state.map (fun v => |(v : ℚ) - average|)).sum| / (window : ℚ)
    { state := state, average := average, variance := variance }
  else
    let gray : ℚ := (value : ℚ)
    let updateFraction := ((window : ℚ) - 1) / (window : ℚ)
    let average := gray / (window : ℚ) + o.average * updateFraction
    let variance :=
      |average - gray| / (window : ℚ) + o.variance * updateFraction
    { state := state, average := average, variance := variance }

/-- `Oscillator::truncate_state` (oscillator.rs:81-88): when
`len > window` the Rust code runs `state.copy_within((len - window - 1).., 0)`
followed by `state.truncate(window)`, which leaves the `window`-element
slice of the original buffer starting at `len - window - 1`. -/
def truncateState (window : ℕ) (o : Oscillator) : Oscillator :=
  let len := o.state.length
  if window < len then
    { o with state := (o.state.drop (len - window - 1)).take window }
  else
    o

/-- Rust `Iterator::enumerate` (paired with the skipped prefix kept in the
indices), written as an explicit counter so that `skip`/`take` interact
with it the way the Rust iterator chain does. -/
def enumFrom {α : Type} : ℕ → List α → List (ℕ × α)
  | _, [] => []
  | n, a :: t => (n, a) :: enumFrom (n + 1) t

/-- Rust `Iterator::max_by` with the comparator in `largest_bin`
(oscillator.rs:161-167): `compare(a, b)` yields `Less` when `a < b` and
`Greater` otherwise, so the accumulator is replaced exactly when the new
magnitude is strictly greater — the earliest maximal element survives.
`max_by` keeps the accumulator iff the comparison is `Greater`. -/
def maxByFirstStep (acc : Option (ℕ × ℚ)) (x : ℕ × ℚ) : Option (ℕ × ℚ) :=
  match acc with
  | none => some x
  | some a => if a.2 < x.2 then some x else some a

/-- The fold of `max_by`, starting from the empty accumulator. -/
def maxByFirst (l : List (ℕ × ℚ)) : Option (ℕ × ℚ) :=
  l.foldl maxByFirstStep none

/-- The sequence of `(index, scaled magnitude)` candidates scanned by
`largest_bin` (oscillator.rs:144-160): `bins.next()` drops the DC value,
`take(window / 2)` cuts the mirrored half, `map(|mag| mag / window)`
scales, `enumerate` indexes from 0, then `skip(start)` and
`take(count)` clamp to the relevant bins (`count = hi + 1 - lo`, the
element count of the inclusive range, 0 when the range is empty).
`bins` holds the norms of the FFT output buffer. -/
def selectedPairs (window lo hi : ℕ) (bins : List ℚ) : List (ℕ × ℚ) :=
  (((enumFrom 0 (((bins.drop 1).take (window / 2)).map
      (fun m => m / (window : ℚ)))).drop lo).take (hi + 1 - lo))

/-- `largest_bin` (oscillator.rs:144-172): the maximum over
`selectedPairs`, filtered by `mag > MAGNITUDE_THRESHOLD`, shifted by one
for the skipped DC bin. -/
def largestBin (window lo hi : ℕ) (bins : List ℚ) : Option ℕ :=
  match maxByFirst (selectedPairs window lo hi bins) with
  | none => none
  | some (k, mag) => if MAGNITUDE_THRESHOLD < mag then some (k + 1) else none

/- ---------------------------------------------------------------- -/
/- Analyzer (src/frequency.rs)                                       -/
/- ---------------------------------------------------------------- -/

/-- The per-frame patch sample fed to an oscillator
(`Analyzer::push_pixel_values_to_oscillators`, frequency.rs:160-171):
`((p(x,y) + p(x,y+1) + p(x+1,y) + p(x+1,y+1)) / VIEW_SIZE) as u8` in
`u32` arithmetic.  The four pixels are `u8` so the sum is at most 1020
and the `u32` addition cannot wrap; the final `as u8` cast truncates,
i.e. reduces modulo 256. -/
def patchValue (p00 p01 p10 p11 : ℕ) : ℕ :=
  ((p00 + p01 + p10 + p11) / VIEW_SIZE) % 256

/-- `update_frequency_every_nth_frame` (frequency.rs:57-60):
`(REPORT_FREQUENCY_AFTER_MS as f32 * (frame_rate as f32 / 1000.0)) as usize`.
The `as usize` cast truncates toward zero; for the integer inputs in
range the `f32` computation rounds to the same value as the exact
rational, so it is modelled by natural division. -/
def updateFrequencyEveryNthFrame (frameRate : ℕ) : ℕ :=
  REPORT_FREQUENCY_AFTER_MS * frameRate / 1000

/-- The key of `max_by_key(|(_, b)| b[0] + b[1])` in `Analyzer::frequency`
(frequency.rs:200-204). -/
def pairKey (x : ℕ × ℕ × ℕ) : ℕ := x.2.1 + x.2.2

/-- `bins_count.windows(2).enumerate().max_by_key(|(_, b)| b[0] + b[1])`
(frequency.rs:200-204).  The adjacent pairs are `zip l l.tail`; Rust's
`max_by_key` keeps the accumulator iff its key is strictly greater, so
among equal keys the last element wins. -/
def maxAdjPairStep (acc : Option (ℕ × ℕ × ℕ)) (x : ℕ × ℕ × ℕ) :
    Option (ℕ × ℕ × ℕ) :=
  match acc with
  | none => some x
  | some a => if pairKey a ≤ pairKey x then some x else some a

/-- The fold of `max_by_key` over the enumerated adjacent pairs. -/
def maxAdjPair (l : List ℕ) : Option (ℕ × ℕ × ℕ) :=
  (enumFrom 0 (l.zip l.tail)).foldl maxAdjPairStep none

/-- `Analyzer::bin_to_frequency` (frequency.rs:236-238):
`(bin * self.frame_rate) as f32 / self.window as f32`. -/
def binToFrequency (frameRate window bin : ℕ) : ℚ :=
  ((bin * frameRate : ℕ) : ℚ) / (window : ℚ)

/-- The histogram fill of `Analyzer::frequency` (frequency.rs:187-196):
`bins_count` starts as `window / 2` zeros and `bins_count[bin] += 1` runs
for each oscillator whose `frequency_bin` returned `Some(bin)`.  An
out-of-range `bin` is an index-out-of-bounds panic, modelled by
`Except.error`. -/
def buildBinsStep (acc : Except Unit (List ℕ)) (v : Option ℕ) :
    Except Unit (List ℕ) :=
  match acc, v with
  | .error e, _ => .error e
  | .ok bins, none => .ok bins
  | .ok bins, some b =>
    if h : b < bins.length then .ok (bins.set b (bins[b] + 1))
    else .error ()

/-- The histogram fold, from the all-zero bins. -/
def buildBins (size : ℕ) (votes : List (Option ℕ)) : Except Unit (List ℕ) :=
  votes.foldl buildBinsStep (.ok (List.replicate size 0))

/-- `Analyzer::frequency` (frequency.rs:173-224), parameterised by the
votes the oscillators produced (`frequency_bin` results).  The
`.unwrap()` on the empty adjacent-pair maximum (window / 2 < 2) is a
panic, modelled by `Except.error`.  The agreement test divides in `f32`;
when no oscillator voted it computes `0.0 / 0.0 = NaN`, and
`NaN > MIN_OSCILLATORS_AGREEMENT_RATIO` is false — in the rational
model `0 / 0 = 0` and `1/2 < 0` is false, the same branch. -/
def analyzerFrequency (frameRate window : ℕ) (votes : List (Option ℕ)) :
    Except Unit (Option ℚ) :=
  match buildBins (window / 2) votes with
  | .error e => .error e
  | .ok binsCount =>
    match maxAdjPair binsCount with
    | none => .error ()
    | some (bin1, couple) =>
      let coupleCount : ℚ := ((couple.1 + couple.2 : ℕ) : ℚ)
      let oscillatorCount : ℚ := ((binsCount.sum : ℕ) : ℚ)
      if minOscillatorsAgreement < coupleCount / oscillatorCount then
        let f1 := binToFrequency frameRate window bin1
        let f1Share := (couple.1 : ℚ) / coupleCount
        let f2 := binToFrequency frameRate window (bin1 + 1)
        let f2Share := (couple.2 : ℚ) / coupleCount
        .ok (some (f1 * f1Share + f2 * f2Share))
      else
        .ok none

/- ---------------------------------------------------------------- -/
/- Frequency tracker (src/frequency_tracker.rs)                      -/
/- ---------------------------------------------------------------- -/

/-- `analyzer::Report` (frequency.rs:13-18). -/
structure Report where
  window : ℕ
  frameIndex : ℕ
  frequency : ℚ
deriving DecidableEq

/-- `FrequencyTracker::calculate_latest` (frequency_tracker.rs:25-61),
applied to the snapshot of the tracker's reports in ascending order of
window size (`BTreeMap::values`).  `windows(2)` over that vector is
`zip reports reports.tail`; the `take_while` keeps pairs whose second
frequency lies in the half-open interval
`(prev.frequency - s)..(prev.frequency + s)` with
`s = frame_rate / prev.window`; `.last()` then `.map(|pair| pair[1].frequency)`. -/
def calculateLatest (frameRate : ℕ) (reports : List Report) : Option ℚ :=
  (((reports.zip reports.tail).takeWhile
      (fun pr =>
        let s : ℚ := (frameRate : ℚ) / (pr.1.window : ℚ)
        decide (pr.1.frequency - s ≤ pr.2.frequency ∧
          pr.2.frequency < pr.1.frequency + s))).getLast?).map
    (fun pr => pr.2.frequency)

/- ---------------------------------------------------------------- -/
/- Frame differencer (src/frame.rs)                                  -/
/- ---------------------------------------------------------------- -/

/-- `copy_only_different_pixels` (frame.rs:152-168): the output pixel is
0 where the previous frame equals the new one and the new pixel
otherwise (`zip` stops at the shorter buffer, as the Rust `zip` does).
A frame is its list of `u8` pixels in row-major order. -/
def copyOnlyDifferentPixels (previousFrame frame : List ℕ) : List ℕ :=
  List.zipWith (fun q p => if q = p then 0 else p) previousFrame frame

/-- The steady-state loop of
`FrameIter::difference_between_input_frame_and_previous_frame`
(frame.rs:110-132) once a previous frame exists: each input frame yields
the pixel difference against the previous frame, which is then replaced
by the new frame. -/
def goFrames (prev : List ℕ) : List (List ℕ) → List (List ℕ)
  | [] => []
  | f :: rest => copyOnlyDifferentPixels prev f :: goFrames f rest

/-- The full output stream of the differencer.  On the very first frame
`previous_frame` is `None`: the code stores the frame and recurses; the
recursion re-reads the same decoded frame out of the conversion buffer
and takes the `Some` branch, so the first input emits the difference of
the first frame with itself. -/
def frameIterOutputs : List (List ℕ) → List (List ℕ)
  | [] => []
  | f :: rest => copyOnlyDifferentPixels f f :: goFrames f rest

/- ---------------------------------------------------------------- -/
/- Helper lemmas                                                     -/
/- ---------------------------------------------------------------- -/

theorem copyOnlyDifferentPixels_self (g : List ℕ) :
    copyOnlyDifferentPixels g g = List.replicate g.length 0 := by
  induction g with
  | nil => rfl
  | cons a t ih =>
    simp [copyOnlyDifferentPixels, List.replicate] at ih ⊢
    try exact ih

theorem goFrames_replicate (n : ℕ) (g : List ℕ) :
    goFrames g (List.replicate n g) =
      List.replicate n (copyOnlyDifferentPixels g g) := by
  induction n with
  | zero => rfl
  | succ m ih => simp [List.replicate, goFrames, ih]

theorem goFrames_eq_zipWith (prev : List ℕ) (fs : List (List ℕ)) :
    goFrames prev fs =
      List.zipWith copyOnlyDifferentPixels ((prev :: fs).dropLast) fs := by
  induction fs generalizing prev with
  | nil => rfl
  | cons f rest ih =>
    cases rest with
    | nil => rfl
    | cons g rest2 =>
      have h := ih f
      simp only [goFrames, List.dropLast_cons₂, List.zipWith] at h ⊢
      rw [h]

/- ---------------------------------------------------------------- -/
/- C1: tracker consensus                                             -/
/- ---------------------------------------------------------------- -/

/-- C1.  The claim says `calculate_latest` returns `Some` for every
tracker holding at least one report, starting the traversal from the
report with the smallest window, and returns `None` only on an empty
tracker.  The code instead maps `windows(2).take_while(..).last()`: on a
tracker with exactly one report there is no adjacent pair, so the
result is `None` — contradicting the claim (and the function's own
comment, which promises to start from the roughest estimate).  Here a
single report `{window := 120, frameIndex := 0, frequency := 2}` at
frame rate 30 yields `None` where the documented algorithm yields its
frequency `2`. -/
theorem calculate_latest_single_report_none :
    calculateLatest 30 [{ window := 120, frameIndex := 0, frequency := 2 }] =
      none := by
  rfl

/- ---------------------------------------------------------------- -/
/- C2: truncate_state                                                -/
/- ---------------------------------------------------------------- -/

/-- C2.  The claim (and the spec's explicit truncation-edge note) says
`truncate_state` must keep exactly the last `W` samples,
`source[L−W..L]`.  The code shifts from `L − W − 1`: for `W = 2` and
state `[1, 2, 3]` it keeps `[1, 2]` — retaining a stale sample and
dropping the newest — where the last two samples are `[2, 3]`. -/
theorem truncate_state_keeps_stale_sample :
    (truncateState 2
        { state := [1, 2, 3], average := 0, variance := 0 }).state = [1, 2] ∧
    ([1, 2, 3] : List ℕ).drop (3 - 2) = [2, 3] ∧
    ([1, 2] : List ℕ) ≠ [2, 3] := by
  refine ⟨rfl, rfl, by decide⟩

/- ---------------------------------------------------------------- -/
/- C5: report cadence divisor                                        -/
/- ---------------------------------------------------------------- -/

/-- C5 counterexample.  The claim asserts the frame count between report
attempts, `REPORT_FREQUENCY_AFTER_MS · frame_rate / 1000`, is at least 1
for every frame rate.  At `frame_rate = 2` it is
`⌊250 · 2 / 1000⌋ = 0`, so the per-frame `frame_index % divisor` test
would divide by zero. -/
theorem report_divisor_zero_at_low_frame_rate :
    updateFrequencyEveryNthFrame 2 = 0 ∧
    ¬ 1 ≤ updateFrequencyEveryNthFrame 2 := by decide

/-- C5 amended.  The divisor `REPORT_FREQUENCY_AFTER_MS · frame_rate / 1000`
is at least 1 exactly when `frame_rate ≥ 4`; for `frame_rate ≤ 3` it is
0 and the modulo gate takes a zero divisor.  (The code contains no
`max(1, ·)` clamp.) -/
theorem report_divisor_positive_iff (frameRate : ℕ) :
    1 ≤ updateFrequencyEveryNthFrame frameRate ↔ 4 ≤ frameRate := by
  unfold updateFrequencyEveryNthFrame REPORT_FREQUENCY_AFTER_MS
  omega

/- ---------------------------------------------------------------- -/
/- C7: frame differencer                                             -/
/- ---------------------------------------------------------------- -/

/-- C7 counterexample.  The claim says the differencer emits no output
for the first input frame.  In the code the first-frame branch stores
the frame and recurses; the recursion re-reads the same decoded frame
and emits its difference with itself.  On the single-frame input
`[[5]]` the stream emits one (all-zero) frame, not zero frames. -/
theorem first_frame_emits_output :
    frameIterOutputs [[5]] = [[0]] ∧
    ([[0]] : List (List ℕ)) ≠ [] := by decide

/-- C7 amended.  The differencer emits exactly one change frame per
input frame, the first included: the first output is the all-zero
difference of the first frame with itself, and each later output pixel
is 0 where the new pixel equals the previous source frame's pixel and
the new pixel otherwise.  Consequently, on constant input every output
frame (the first included) is all-zero. -/
theorem frame_differencer_characterization :
    (∀ fs : List (List ℕ),
      frameIterOutputs fs =
        List.zipWith copyOnlyDifferentPixels (fs.take 1 ++ fs.dropLast) fs) ∧
    (∀ (n : ℕ) (g : List ℕ),
      frameIterOutputs (List.replicate n g) =
        List.replicate n (List.replicate g.length 0)) := by
  constructor
  · intro fs
    cases fs with
    | nil => rfl
    | cons f rest =>
      show copyOnlyDifferentPixels f f :: goFrames f rest = _
      rw [goFrames_eq_zipWith]
      rfl
  · intro n g
    cases n with
    | zero => rfl
    | succ m =>
      show copyOnlyDifferentPixels g g :: goFrames g (List.replicate m g) = _
      rw [goFrames_replicate, copyOnlyDifferentPixels_self]
      rfl

/- ---------------------------------------------------------------- -/
/- C10: patch value wrap                                             -/
/- ---------------------------------------------------------------- -/

/-- C10.  The patch sample is `(p00 + p01 + p10 + p11) / 2` in 32-bit
arithmetic cast to `u8`: whenever the four-pixel sum reaches 512 the
cast wraps (the sample is the halved sum minus 256, i.e. the halved sum
modulo 256) instead of saturating at 255, folding bright patches onto
dark values. -/
theorem patch_value_wraps (p00 p01 p10 p11 : ℕ)
    (h0 : p00 ≤ 255) (h1 : p01 ≤ 255) (h2 : p10 ≤ 255) (h3 : p11 ≤ 255)
    (hsum : 512 ≤ p00 + p01 + p10 + p11) :
    patchValue p00 p01 p10 p11 = (p00 + p01 + p10 + p11) / 2 % 256 ∧
    patchValue p00 p01 p10 p11 + 256 = (p00 + p01 + p10 + p11) / 2 ∧
    patchValue p00 p01 p10 p11 ≠ min ((p00 + p01 + p10 + p11) / 2) 255 := by
  unfold patchValue VIEW_SIZE
  omega

/-- C10 witness: four pixels of 128 (sum 512) push the sample 0. -/
theorem patch_value_wraps_witness :
    patchValue 128 128 128 128 = 0 ∧ 512 ≤ 128 + 128 + 128 + 128 := by
  have h := (patch_value_wraps 128 128 128 128 (by decide) (by decide)
    (by decide) (by decide) (by decide)).2.1
  exact ⟨by omega, by decide⟩

theorem abs_sum_div_eq (l : List ℚ) (w : ℚ) (h : ∀ x ∈ l, 0 ≤ x) :
    |l.sum| / w = l.sum / w := by
  rw [abs_of_nonneg (List.sum_nonneg h)]

/-- C8. -/
theorem push_pixel_value_statistics (w : ℕ) (o : Oscillator) (v : ℕ) :
    (pushPixelValue w o v).state = o.state ++ [v] ∧
    ((pushPixelValue w o v).state.length < w →
      (pushPixelValue w o v).average = o.average ∧
      (pushPixelValue w o v).variance = o.variance) ∧
    ((pushPixelValue w o v).state.length = w →
      (pushPixelValue w o v).average =
        ((o.state ++ [v]).map (fun s => (s : ℚ))).sum / (w : ℚ) ∧
      (pushPixelValue w o v).variance =
        ((o.state ++ [v]).map
          (fun s => |(s : ℚ) - (pushPixelValue w o v).average|)).sum /
          (w : ℚ)) ∧
    (w < (pushPixelValue w o v).state.length →
      (pushPixelValue w o v).average =
        (v : ℚ) / (w : ℚ) + o.average * (((w : ℚ) - 1) / (w : ℚ)) ∧
      (pushPixelValue w o v).variance =
        |(pushPixelValue w o v).average - (v : ℚ)| / (w : ℚ) +
          o.variance * (((w : ℚ) - 1) / (w : ℚ))) := by
  have hd : pushPixelValue w o v =
      if (o.state ++ [v]).length < w then { o with state := o.state ++ [v] }
      else if (o.state ++ [v]).length = w then
        { state := o.state ++ [v],
          average :=
            ((o.state ++ [v]).map (fun s => (s : ℚ))).sum / (w : ℚ),
          variance :=
            |((o.state ++ [v]).map (fun s =>
              |(s : ℚ) -
                ((o.state ++ [v]).map (fun u => (u : ℚ))).sum /
                  (w : ℚ)|)).sum| / (w : ℚ) }
      else
        { state := o.state ++ [v],
          average :=
            (v : ℚ) / (w : ℚ) + o.average * (((w : ℚ) - 1) / (w : ℚ)),
          variance :=
            |(v : ℚ) / (w : ℚ) + o.average * (((w : ℚ) - 1) / (w : ℚ)) -
              (v : ℚ)| / (w : ℚ) +
              o.variance * (((w : ℚ) - 1) / (w : ℚ)) } := rfl
  by_cases h1 : (o.state ++ [v]).length < w
  · rw [hd, if_pos h1]
    refine ⟨rfl, fun _ => ⟨rfl, rfl⟩, fun h2 => ?_, fun h3 => ?_⟩
    · have h2' : (o.state ++ [v]).length = w := h2
      omega
    · have h3' : w < (o.state ++ [v]).length := h3
      omega
  · by_cases h2 : (o.state ++ [v]).length = w
    · rw [hd, if_neg h1, if_pos h2]
      refine ⟨rfl, fun hlt => ?_, fun _ => ⟨rfl, ?_⟩, fun hgt => ?_⟩
      · have hlt' : (o.state ++ [v]).length < w := hlt
        omega
      · exact abs_sum_div_eq _ _ (fun x hx => by
          obtain ⟨a, _, rfl⟩ := List.mem_map.mp hx
          exact abs_nonneg _)
      · have hgt' : w < (o.state ++ [v]).length := hgt
        omega
    · rw [hd, if_neg h1, if_neg h2]
      refine ⟨rfl, fun hlt => ?_, fun heq => ?_, fun _ => ⟨rfl, rfl⟩⟩
      · have hlt' : (o.state ++ [v]).length < w := hlt
        omega
      · have heq' : (o.state ++ [v]).length = w := heq
        omega

/-- C8 witness: pushing 3 onto state `[1]` with window 2 reaches
`L = W = 2` and sets `mean = (1+3)/2 = 2`, `var = (|1-2|+|3-2|)/2 = 1`. -/
theorem push_pixel_value_statistics_witness :
    (pushPixelValue 2 { state := [1], average := 0, variance := 0 } 3).average
        = 2 ∧
    (pushPixelValue 2 { state := [1], average := 0, variance := 0 } 3).variance
        = 1 := by
  have h := (push_pixel_value_statistics 2
    { state := [1], average := 0, variance := 0 } 3).2.2.1 (by decide)
  refine ⟨?_, ?_⟩
  · rw [h.1]
    norm_num
  · rw [h.2, h.1]
    norm_num

theorem mem_enumFrom {α : Type} {x : ℕ × α} :
    ∀ {n : ℕ} {l : List α}, x ∈ enumFrom n l →
      n ≤ x.1 ∧ x.1 < n + l.length ∧ l.get? (x.1 - n) = some x.2 := by
  intro n l
  induction l generalizing n with
  | nil => intro h; cases h
  | cons a t ih =>
    intro h
    rcases List.mem_cons.mp h with h1 | h2
    · subst h1
      refine ⟨le_refl _, by simp, by simp⟩
    · obtain ⟨hle, hlt, hget⟩ := ih h2
      refine ⟨by omega, by simp; omega, ?_⟩
      have hx : x.1 - n = (x.1 - (n + 1)) + 1 := by omega
      rw [hx]
      simpa using hget

theorem get?_mem_enumFrom {α : Type} :
    ∀ {l : List α} {i : ℕ} {a : α} (n : ℕ), l.get? i = some a →
      (n + i, a) ∈ enumFrom n l := by
  intro l
  induction l with
  | nil => intro i a n h; cases h
  | cons b t ih =>
    intro i a n h
    cases i with
    | zero =>
      simp at h
      subst h
      exact List.mem_cons_self _ _
    | succ j =>
      have h2 : t.get? j = some a := by simpa using h
      have h3 := ih (n + 1) h2
      have hx : n + (j + 1) = (n + 1) + j := by omega
      rw [hx]
      exact List.mem_cons_of_mem _ h3

theorem enumFrom_pairwise {α : Type} :
    ∀ (n : ℕ) (l : List α),
      (enumFrom n l).Pairwise (fun p q => p.1 < q.1) := by
  intro n l
  induction l generalizing n with
  | nil => exact List.Pairwise.nil
  | cons a t ih =>
    refine List.pairwise_cons.mpr ⟨?_, ih (n + 1)⟩
    intro x hx
    have := (mem_enumFrom hx).1
    simp
    omega

theorem enumFrom_drop {α : Type} :
    ∀ (m n : ℕ) (l : List α),
      (enumFrom n l).drop m = enumFrom (n + m) (l.drop m) := by
  intro m
  induction m with
  | zero => intro n l; simp
  | succ j ih =>
    intro n l
    cases l with
    | nil => simp [enumFrom]
    | cons a t =>
      show (enumFrom (n + 1) t).drop j = _
      rw [ih (n + 1) t]
      congr 1
      omega

theorem enumFrom_take {α : Type} :
    ∀ (m n : ℕ) (l : List α),
      (enumFrom n l).take m = enumFrom n (l.take m) := by
  intro m
  induction m with
  | zero => intro n l; simp [enumFrom]
  | succ j ih =>
    intro n l
    cases l with
    | nil => simp [enumFrom]
    | cons a t =>
      show (n, a) :: (enumFrom (n + 1) t).take j = _
      rw [ih (n + 1) t]
      rfl

/-- `max_by` with the never-equal comparator: starting from accumulator
`a`, the fold returns the first element of maximal value. -/
theorem maxByFirst_go (t : List (ℕ × ℚ)) :
    ∀ (a : ℕ × ℚ), (a :: t).Pairwise (fun p q => p.1 < q.1) →
      ∃ c, t.foldl maxByFirstStep (some a) = some c ∧
        c ∈ a :: t ∧ (∀ x ∈ a :: t, x.2 ≤ c.2) ∧
        (∀ x ∈ a :: t, x.2 = c.2 → c.1 ≤ x.1) := by
  induction t with
  | nil =>
    intro a _
    refine ⟨a, rfl, List.mem_cons_self _ _, ?_, ?_⟩
    · intro x hx
      rw [List.mem_singleton] at hx
      subst hx
      exact le_refl _
    · intro x hx _
      rw [List.mem_singleton] at hx
      subst hx
      exact le_refl _
  | cons b t2 ih =>
    intro a hp
    have hp1 := List.pairwise_cons.mp hp
    have hp_ab : a.1 < b.1 := hp1.1 b (List.mem_cons_self _ _)
    have hp_at2 : ∀ y ∈ t2, a.1 < y.1 :=
      fun y hy => hp1.1 y (List.mem_cons_of_mem b hy)
    have hp_bt2 := hp1.2
    by_cases hab : a.2 < b.2
    · have hstep : (b :: t2).foldl maxByFirstStep (some a) =
          t2.foldl maxByFirstStep (some b) := by
        simp [List.foldl_cons, maxByFirstStep, hab]
      obtain ⟨c, hc, hmem, hmax, htie⟩ := ih b hp_bt2
      refine ⟨c, by rw [hstep]; exact hc, List.mem_cons_of_mem a hmem,
        ?_, ?_⟩
      · intro x hx
        rcases List.mem_cons.mp hx with h1 | h2
        · subst h1
          exact le_trans (le_of_lt hab) (hmax b (List.mem_cons_self _ _))
        · exact hmax x h2
      · intro x hx hxe
        rcases List.mem_cons.mp hx with h1 | h2
        · subst h1
          exact absurd hxe
            (ne_of_lt (lt_of_lt_of_le hab (hmax b (List.mem_cons_self _ _))))
        · exact htie x h2 hxe
    · have hstep : (b :: t2).foldl maxByFirstStep (some a) =
          t2.foldl maxByFirstStep (some a) := by
        simp [List.foldl_cons, maxByFirstStep, hab]
      have hp2 : (a :: t2).Pairwise (fun p q => p.1 < q.1) :=
        List.pairwise_cons.mpr ⟨hp_at2, (List.pairwise_cons.mp hp_bt2).2⟩
      obtain ⟨c, hc, hmem, hmax, htie⟩ := ih a hp2
      have hba : b.2 ≤ a.2 := le_of_not_lt hab
      have hac : a.2 ≤ c.2 := hmax a (List.mem_cons_self _ _)
      refine ⟨c, by rw [hstep]; exact hc, ?_, ?_, ?_⟩
      · rcases List.mem_cons.mp hmem with h1 | h2
        · subst h1
          exact List.mem_cons_self _ _
        · exact List.mem_cons_of_mem a (List.mem_cons_of_mem b h2)
      · intro x hx
        rcases List.mem_cons.mp hx with h1 | h2
        · subst h1
          exact hac
        rcases List.mem_cons.mp h2 with h3 | h4
        · subst h3
          exact le_trans hba hac
        · exact hmax x (List.mem_cons_of_mem a h4)
      · intro x hx hxe
        rcases List.mem_cons.mp hx with h1 | h2
        · subst h1
          exact htie x (List.mem_cons_self _ _) hxe
        rcases List.mem_cons.mp h2 with h3 | h4
        · subst h3
          have heq : a.2 = c.2 := le_antisymm hac (hxe ▸ hba)
          exact le_of_lt
            (lt_of_le_of_lt (htie a (List.mem_cons_self _ _) heq) hp_ab)
        · exact htie x (List.mem_cons_of_mem a h4) hxe

/-- `largest_bin`'s maximum search returns an element of the candidate
list of maximal magnitude, and the earliest such element: any candidate
of equal magnitude has an index at least as large. -/
theorem maxByFirst_spec (l : List (ℕ × ℚ))
    (hp : l.Pairwise (fun p q => p.1 < q.1)) (c : ℕ × ℚ)
    (h : maxByFirst l = some c) :
    c ∈ l ∧ (∀ x ∈ l, x.2 ≤ c.2) ∧ (∀ x ∈ l, x.2 = c.2 → c.1 ≤ x.1) := by
  cases l with
  | nil => cases h
  | cons a t =>
    obtain ⟨c2, hc2, hmem, hmax, htie⟩ := maxByFirst_go t a hp
    have hc2' : maxByFirst (a :: t) = some c2 := hc2
    rw [h] at hc2'
    injection hc2' with he
    subst he
    exact ⟨hmem, hmax, htie⟩

/-- `max_by_key` with key `pairKey`: starting from accumulator `a`, the
fold returns the last element of maximal key. -/
theorem maxAdjPair_go (t : List (ℕ × ℕ × ℕ)) :
    ∀ (a : ℕ × ℕ × ℕ), (a :: t).Pairwise (fun p q => p.1 < q.1) →
      ∃ c, t.foldl maxAdjPairStep (some a) = some c ∧
        c ∈ a :: t ∧ (∀ x ∈ a :: t, pairKey x ≤ pairKey c) ∧
        (∀ x ∈ a :: t, pairKey x = pairKey c → x.1 ≤ c.1) := by
  induction t with
  | nil =>
    intro a _
    refine ⟨a, rfl, List.mem_cons_self _ _, ?_, ?_⟩
    · intro x hx
      rw [List.mem_singleton] at hx
      subst hx
      exact le_refl _
    · intro x hx _
      rw [List.mem_singleton] at hx
      subst hx
      exact le_refl _
  | cons b t2 ih =>
    intro a hp
    have hp1 := List.pairwise_cons.mp hp
    have hp_ab : a.1 < b.1 := hp1.1 b (List.mem_cons_self _ _)
    have hp_abt2 : ∀ y ∈ b :: t2, a.1 < y.1 := hp1.1
    have hp_bt2 := hp1.2
    by_cases hab : pairKey a ≤ pairKey b
    · have hstep : (b :: t2).foldl maxAdjPairStep (some a) =
          t2.foldl maxAdjPairStep (some b) := by
        simp [List.foldl_cons, maxAdjPairStep, hab]
      obtain ⟨c, hc, hmem, hmax, htie⟩ := ih b hp_bt2
      have hbc : pairKey b ≤ pairKey c := hmax b (List.mem_cons_self _ _)
      refine ⟨c, by rw [hstep]; exact hc, List.mem_cons_of_mem a hmem,
        ?_, ?_⟩
      · intro x hx
        rcases List.mem_cons.mp hx with h1 | h2
        · subst h1
          exact le_trans hab hbc
        · exact hmax x h2
      · intro x hx hxe
        rcases List.mem_cons.mp hx with h1 | h2
        · subst h1
          exact le_of_lt (hp_abt2 c hmem)
        · exact htie x h2 hxe
    · have hstep : (b :: t2).foldl maxAdjPairStep (some a) =
          t2.foldl maxAdjPairStep (some a) := by
        simp [List.foldl_cons, maxAdjPairStep, hab]
      have hp2 : (a :: t2).Pairwise (fun p q => p.1 < q.1) :=
        List.pairwise_cons.mpr
          ⟨fun y hy => hp_abt2 y (List.mem_cons_of_mem b hy),
            (List.pairwise_cons.mp hp_bt2).2⟩
      obtain ⟨c, hc, hmem, hmax, htie⟩ := ih a hp2
      have hba : pairKey b < pairKey a := lt_of_not_le hab
      have hac : pairKey a ≤ pairKey c := hmax a (List.mem_cons_self _ _)
      refine ⟨c, by rw [hstep]; exact hc, ?_, ?_, ?_⟩
      · rcases List.mem_cons.mp hmem with h1 | h2
        · subst h1
          exact List.mem_cons_self _ _
        · exact List.mem_cons_of_mem a (List.mem_cons_of_mem b h2)
      · intro x hx
        rcases List.mem_cons.mp hx with h1 | h2
        · subst h1
          exact hac
        rcases List.mem_cons.mp h2 with h3 | h4
        · subst h3
          exact le_trans (le_of_lt hba) hac
        · exact hmax x (List.mem_cons_of_mem a h4)
      · intro x hx hxe
        rcases List.mem_cons.mp hx with h1 | h2
        · subst h1
          exact htie x (List.mem_cons_self _ _) hxe
        rcases List.mem_cons.mp h2 with h3 | h4
        · subst h3
          exact absurd hxe (ne_of_lt (lt_of_lt_of_le hba hac))
        · exact htie x (List.mem_cons_of_mem a h4) hxe

/-- `Analyzer::frequency`'s pair maximum returns an element of maximal
key, the last one: any candidate of equal key has an index at most as
large. -/
theorem maxAdjPair_fold_spec (l : List (ℕ × ℕ × ℕ))
    (hp : l.Pairwise (fun p q => p.1 < q.1)) (c : ℕ × ℕ × ℕ)
    (h : l.foldl maxAdjPairStep none = some c) :
    c ∈ l ∧ (∀ x ∈ l, pairKey x ≤ pairKey c) ∧
      (∀ x ∈ l, pairKey x = pairKey c → x.1 ≤ c.1) := by
  cases l with
  | nil => cases h
  | cons a t =>
    obtain ⟨c2, hc2, hmem, hmax, htie⟩ := maxAdjPair_go t a hp
    have hc2' : (a :: t).foldl maxAdjPairStep none = some c2 := hc2
    rw [h] at hc2'
    injection hc2' with he
    subst he
    exact ⟨hmem, hmax, htie⟩

theorem selectedPairs_pairwise (w lo hi : ℕ) (bins : List ℚ) :
    (selectedPairs w lo hi bins).Pairwise (fun p q => p.1 < q.1) := by
  unfold selectedPairs
  exact List.Pairwise.sublist
    ((List.take_sublist _ _).trans (List.drop_sublist _ _))
    (enumFrom_pairwise 0 _)

theorem selectedPairs_eq (w lo hi : ℕ) (bins : List ℚ) :
    selectedPairs w lo hi bins =
      enumFrom lo (((((bins.drop 1).take (w / 2)).map
        (fun m => m / (w : ℚ))).drop lo).take (hi + 1 - lo)) := by
  unfold selectedPairs
  rw [enumFrom_drop, enumFrom_take]
  norm_num

/-- C3 counterexample.  With `W = 8` and inclusive bin range `[1, 3]`,
an FFT magnitude list whose only strong value sits at its index 4
(scaled magnitude `48 / 8 = 6 > 5`) makes `largest_bin` return bin 4:
the enumeration indexes the post-DC list from 0 and `skip`/`take`
operate on those shifted indices before the final `+ 1`, so the result
escapes the requested range `[1, 3]` and equals `W / 2 = 4` instead of
being below it. -/
theorem largest_bin_escapes_range :
    largestBin 8 1 3 [0, 0, 0, 0, 48, 0, 0, 0] = some 4 ∧
    ¬ (1 ≤ 4 ∧ 4 ≤ 3) ∧ ¬ (4 < 8 / 2) := by
  refine ⟨?_, by decide, by decide⟩
  norm_num [largestBin, selectedPairs, maxByFirst, maxByFirstStep, enumFrom,
    MAGNITUDE_THRESHOLD]

/-- C3 amended.  When `largest_bin` returns `Some k`, the bin satisfies
`lo + 1 ≤ k ≤ min hi (W/2 − 1) + 1`: one above the requested inclusive
range at both ends.  In particular `1 ≤ k ≤ W/2` — the claimed
`k ∈ [lo, hi]` and `k < W/2` both fail in general. -/
theorem largest_bin_bounds (w lo hi : ℕ) (bins : List ℚ) (k : ℕ)
    (h : largestBin w lo hi bins = some k) :
    lo + 1 ≤ k ∧ k ≤ min hi (w / 2 - 1) + 1 := by
  unfold largestBin at h
  cases hm : maxByFirst (selectedPairs w lo hi bins) with
  | none => rw [hm] at h; cases h
  | some c =>
    obtain ⟨i, mg⟩ := c
    rw [hm] at h
    change (if MAGNITUDE_THRESHOLD < mg then some (i + 1) else none)
      = some k at h
    by_cases ht : MAGNITUDE_THRESHOLD < mg
    · rw [if_pos ht] at h
      injection h with hk
      have hspec := maxByFirst_spec _ (selectedPairs_pairwise w lo hi bins)
        _ hm
      have hmem := hspec.1
      rw [selectedPairs_eq] at hmem
      have hb := mem_enumFrom hmem
      have hlen : (((((bins.drop 1).take (w / 2)).map
          (fun m => m / (w : ℚ))).drop lo).take (hi + 1 - lo)).length =
          min (hi + 1 - lo)
            ((((bins.drop 1).take (w / 2)).map
              (fun m => m / (w : ℚ))).length - lo) := by
        rw [List.length_take, List.length_drop]
      have hM : (((bins.drop 1).take (w / 2)).map
          (fun m => m / (w : ℚ))).length ≤ w / 2 := by
        rw [List.length_map, List.length_take]
        exact min_le_left _ _
      have h1 := hb.1
      have h2 := hb.2.1
      rw [hlen] at h2
      omega
    · rw [if_neg ht] at h
      cases h

/-- C3 amended witness: `W = 8`, range `[1, 3]`, strong post-DC index 1
(scaled magnitude 6) returns bin 2, which satisfies
`1 + 1 ≤ 2 ≤ min 3 (8/2 − 1) + 1 = 4`. -/
theorem largest_bin_bounds_witness :
    largestBin 8 1 3 [0, 0, 48, 0, 0, 0, 0, 0] = some 2 ∧
    1 + 1 ≤ 2 ∧ 2 ≤ min 3 (8 / 2 - 1) + 1 := by
  have he : largestBin 8 1 3 [0, 0, 48, 0, 0, 0, 0, 0] = some 2 := by
    norm_num [largestBin, selectedPairs, maxByFirst, maxByFirstStep,
      enumFrom, MAGNITUDE_THRESHOLD]
  have hb := largest_bin_bounds 8 1 3 [0, 0, 48, 0, 0, 0, 0, 0] 2 he
  exact ⟨he, hb.1, hb.2⟩

/-- C9.  In `largest_bin`'s maximum search, the returned bin is the
earliest candidate of maximal scaled magnitude: every candidate of
equal magnitude has an index at least as large, so on ties the lower
bin wins (the returned bin is `index + 1` for the DC shift). -/
theorem largest_bin_tie_prefers_lower (w lo hi : ℕ) (bins : List ℚ)
    (k : ℕ) (h : largestBin w lo hi bins = some k) :
    ∃ m : ℚ, (k - 1, m) ∈ selectedPairs w lo hi bins ∧
      (∀ p ∈ selectedPairs w lo hi bins, p.2 ≤ m) ∧
      (∀ p ∈ selectedPairs w lo hi bins, p.2 = m → k - 1 ≤ p.1) := by
  unfold largestBin at h
  cases hm : maxByFirst (selectedPairs w lo hi bins) with
  | none => rw [hm] at h; cases h
  | some c =>
    obtain ⟨i, mg⟩ := c
    rw [hm] at h
    change (if MAGNITUDE_THRESHOLD < mg then some (i + 1) else none)
      = some k at h
    by_cases ht : MAGNITUDE_THRESHOLD < mg
    · rw [if_pos ht] at h
      injection h with hk
      have hspec := maxByFirst_spec _ (selectedPairs_pairwise w lo hi bins)
        _ hm
      have hki : k - 1 = i := by omega
      rw [hki]
      exact ⟨mg, hspec.1, hspec.2.1, hspec.2.2⟩
    · rw [if_neg ht] at h
      cases h

/-- C9 witness: `W = 8`, range `[0, 3]`, equal magnitudes 6 at post-DC
indices 0 and 2 — the search returns bin 1 (index 0), and the tie
property instantiates at the concrete input. -/
theorem largest_bin_tie_prefers_lower_witness :
    largestBin 8 0 3 [0, 48, 0, 48, 0, 0, 0, 0] = some 1 ∧
    ∃ m : ℚ, (0, m) ∈ selectedPairs 8 0 3 [0, 48, 0, 48, 0, 0, 0, 0] ∧
      (∀ p ∈ selectedPairs 8 0 3 [0, 48, 0, 48, 0, 0, 0, 0], p.2 ≤ m) ∧
      (∀ p ∈ selectedPairs 8 0 3 [0, 48, 0, 48, 0, 0, 0, 0],
        p.2 = m → 0 ≤ p.1) := by
  have he : largestBin 8 0 3 [0, 48, 0, 48, 0, 0, 0, 0] = some 1 := by
    norm_num [largestBin, selectedPairs, maxByFirst, maxByFirstStep,
      enumFrom, MAGNITUDE_THRESHOLD]
  have hb := largest_bin_tie_prefers_lower 8 0 3
    [0, 48, 0, 48, 0, 0, 0, 0] 1 he
  exact ⟨he, hb⟩

theorem zipTail_get? :
    ∀ (l : List ℕ) (j : ℕ) (a b : ℕ),
      (l.zip l.tail).get? j = some (a, b) ↔
        (l.get? j = some a ∧ l.get? (j + 1) = some b) := by
  intro l
  induction l with
  | nil => intro j a b; simp
  | cons x l ih =>
    intro j a b
    cases l with
    | nil =>
      cases j with
      | zero => simp
      | succ i => simp
    | cons y t =>
      cases j with
      | zero => simp [And.comm]
      | succ i =>
        have := ih i a b
        simpa using this

/-- Characterization of the adjacent-pair maximum of
`Analyzer::frequency`: the returned index addresses the counts it
carries, the pair sum is maximal, and every index attaining the same
sum is at most the returned one (`max_by_key` keeps the last maximal
element). -/
theorem maxAdjPair_spec (counts : List ℕ) (k : ℕ) (c1 c2 : ℕ)
    (h : maxAdjPair counts = some (k, (c1, c2))) :
    counts.get? k = some c1 ∧ counts.get? (k + 1) = some c2 ∧
    ∀ j a b, counts.get? j = some a → counts.get? (j + 1) = some b →
      a + b ≤ c1 + c2 ∧ (a + b = c1 + c2 → j ≤ k) := by
  have hspec := maxAdjPair_fold_spec _
    (enumFrom_pairwise 0 (counts.zip counts.tail)) _ h
  have hmem := hspec.1
  have hget := (mem_enumFrom hmem).2.2
  simp only [Nat.sub_zero] at hget
  have hpair := (zipTail_get? counts k c1 c2).mp hget
  refine ⟨hpair.1, hpair.2, ?_⟩
  intro j a b hja hjb
  have hz : (counts.zip counts.tail).get? j = some (a, b) :=
    (zipTail_get? counts j a b).mpr ⟨hja, hjb⟩
  have hmem2 : (0 + j, (a, b)) ∈ enumFrom 0 (counts.zip counts.tail) :=
    get?_mem_enumFrom 0 hz
  simp only [Nat.zero_add] at hmem2
  constructor
  · exact hspec.2.1 (j, (a, b)) hmem2
  · intro he
    exact hspec.2.2 (j, (a, b)) hmem2 he

/-- C4 counterexample.  For the histogram `[1, 0, 1, 0]` the adjacent
pairs `(0,1)` and `(2,3)` both sum to the maximum 1, yet the code
selects index 2: Rust's `max_by_key` returns the last maximal element,
so ties go to the higher `k`, not the lower one as claimed. -/
theorem max_adj_pair_tie_counterexample :
    maxAdjPair [1, 0, 1, 0] = some (2, (1, 0)) ∧
    [1, 0, 1, 0].get? 0 = some 1 ∧ [1, 0, 1, 0].get? 1 = some 0 ∧
    (1 + 0 = 1 + 0 ∧ ¬ (2 ≤ 0)) := by decide

/-- C4 amended.  The Analyzer's pair selection maximizes
`counts[k] + counts[k+1]`, and when several adjacent pairs attain the
maximal sum the pair with the *higher* `k` is selected: every index `j`
whose pair attains the same sum satisfies `j ≤ k`. -/
theorem analyzer_adjacent_pair_ties_higher (counts : List ℕ) (k : ℕ)
    (c1 c2 : ℕ) (h : maxAdjPair counts = some (k, (c1, c2))) :
    counts.get? k = some c1 ∧ counts.get? (k + 1) = some c2 ∧
    ∀ j a b, counts.get? j = some a → counts.get? (j + 1) = some b →
      a + b ≤ c1 + c2 ∧ (a + b = c1 + c2 → j ≤ k) :=
  maxAdjPair_spec counts k c1 c2 h

/-- C4 amended witness, at the tie histogram `[1, 0, 1, 0]` where the
selected index is 2. -/
theorem analyzer_adjacent_pair_ties_higher_witness :
    ([1, 0, 1, 0] : List ℕ).get? 2 = some 1 ∧
    ([1, 0, 1, 0] : List ℕ).get? 3 = some 0 ∧
    ∀ j a b, ([1, 0, 1, 0] : List ℕ).get? j = some a →
      ([1, 0, 1, 0] : List ℕ).get? (j + 1) = some b →
      a + b ≤ 1 + 0 ∧ (a + b = 1 + 0 → j ≤ 2) :=
  analyzer_adjacent_pair_ties_higher [1, 0, 1, 0] 2 1 0 (by decide)

theorem replicate_get? :
    ∀ (m j : ℕ), j < m → (List.replicate m (0 : ℕ)).get? j = some 0 := by
  intro m
  induction m with
  | zero => intro j h; omega
  | succ i ih =>
    intro j h
    cases j with
    | zero => rfl
    | succ j2 =>
      show (List.replicate i (0 : ℕ)).get? j2 = some 0
      exact ih j2 (by omega)

theorem replicate_sum_zero : ∀ (m : ℕ), (List.replicate m (0 : ℕ)).sum = 0 := by
  intro m
  induction m with
  | zero => rfl
  | succ i ih => simp [List.replicate, ih]

theorem getD_eq_getElem :
    ∀ (l : List ℕ) (k : ℕ) (h : k < l.length), l.getD k 0 = l[k] := by
  intro l
  induction l with
  | nil => intro k h; simp at h
  | cons a t ih =>
    intro k h
    cases k with
    | zero => rfl
    | succ j => exact ih j (by simpa using h)

theorem set_getD_self :
    ∀ (l : List ℕ) (k : ℕ), k < l.length → l.set k (l.getD k 0) = l := by
  intro l
  induction l with
  | nil => intro k h; simp at h
  | cons a t ih =>
    intro k h
    cases k with
    | zero => rfl
    | succ j =>
      show a :: t.set j (t.getD j 0) = a :: t
      rw [ih j (by simpa using h)]

theorem getD_set_self :
    ∀ (l : List ℕ) (k v : ℕ), k < l.length → (l.set k v).getD k 0 = v := by
  intro l
  induction l with
  | nil => intro k v h; simp at h
  | cons a t ih =>
    intro k v h
    cases k with
    | zero => rfl
    | succ j => exact ih j v (by simpa using h)

theorem replicate_set_get? :
    ∀ (m k N j : ℕ), j < m →
      ((List.replicate m 0).set k N).get? j =
        some (if j = k then N else 0) := by
  intro m
  induction m with
  | zero => intro k N j h; omega
  | succ i ih =>
    intro k N j h
    cases k with
    | zero =>
      cases j with
      | zero => rfl
      | succ j2 =>
        show (List.replicate i (0 : ℕ)).get? j2 = some (if j2 + 1 = 0 then N else 0)
        rw [replicate_get? i j2 (by omega)]
        simp
    | succ k2 =>
      cases j with
      | zero => rfl
      | succ j2 =>
        show ((List.replicate i 0).set k2 N).get? j2
          = some (if j2 + 1 = k2 + 1 then N else 0)
        rw [ih k2 N j2 (by omega)]
        by_cases hjk : j2 = k2
        · simp [hjk]
        · simp [hjk, Nat.succ_ne_succ]

theorem replicate_set_sum :
    ∀ (m k N : ℕ), k < m → ((List.replicate m 0).set k N).sum = N := by
  intro m
  induction m with
  | zero => intro k N h; omega
  | succ i ih =>
    intro k N h
    cases k with
    | zero =>
      show (N :: List.replicate i 0).sum = N
      simp [replicate_sum_zero]
    | succ k2 =>
      show (0 :: (List.replicate i 0).set k2 N).sum = N
      simp [ih k2 N (by omega)]

theorem buildBins_go_allNone :
    ∀ (votes : List (Option ℕ)) (bins : List ℕ),
      (∀ v ∈ votes, v = none) →
      votes.foldl buildBinsStep (.ok bins) = .ok bins := by
  intro votes
  induction votes with
  | nil => intro bins _; rfl
  | cons v t ih =>
    intro bins h
    have hv : v = none := h v (List.mem_cons_self _ _)
    subst hv
    show t.foldl buildBinsStep (.ok bins) = .ok bins
    exact ih bins (fun x hx => h x (List.mem_cons_of_mem _ hx))

/-- When no oscillator votes, the histogram stays all-zero. -/
theorem buildBins_allNone (size : ℕ) (votes : List (Option ℕ))
    (h : ∀ v ∈ votes, v = none) :
    buildBins size votes = .ok (List.replicate size 0) :=
  buildBins_go_allNone votes _ h

theorem buildBins_go_replicate :
    ∀ (N : ℕ) (bins : List ℕ) (k : ℕ), k < bins.length →
      (List.replicate N (some k)).foldl buildBinsStep (.ok bins) =
        .ok (bins.set k (bins.getD k 0 + N)) := by
  intro N
  induction N with
  | zero =>
    intro bins k h
    show Except.ok bins = .ok (bins.set k (bins.getD k 0 + 0))
    rw [Nat.add_zero, set_getD_self bins k h]
  | succ M ih =>
    intro bins k h
    show (List.replicate M (some k)).foldl buildBinsStep
        (buildBinsStep (.ok bins) (some k)) = _
    have hstep0 : buildBinsStep (.ok bins) (some k) =
        if h2 : k < bins.length then .ok (bins.set k (bins[k] + 1))
        else .error () := rfl
    have hstep : buildBinsStep (.ok bins) (some k) =
        .ok (bins.set k (bins.getD k 0 + 1)) := by
      rw [hstep0, dif_pos h, getD_eq_getElem bins k h]
    rw [hstep]
    have hlen : k < (bins.set k (bins.getD k 0 + 1)).length := by
      rw [List.length_set]
      exact h
    rw [ih (bins.set k (bins.getD k 0 + 1)) k hlen]
    rw [getD_set_self bins k _ h, List.set_set]
    congr 1
    congr 1
    omega

/-- When every oscillator votes the same in-range bin `k`, the
histogram is `N` at `k` and zero elsewhere. -/
theorem buildBins_replicate (size N k : ℕ) (h : k < size) :
    buildBins size (List.replicate N (some k)) =
      .ok ((List.replicate size 0).set k N) := by
  unfold buildBins
  rw [buildBins_go_replicate N (List.replicate size 0) k (by simpa using h)]
  congr 1
  congr 1
  rw [getD_eq_getElem _ k (by simpa using h)]
  simp

theorem foldl_maxAdjPairStep_some :
    ∀ (t : List (ℕ × ℕ × ℕ)) (a : ℕ × ℕ × ℕ),
      ∃ c, t.foldl maxAdjPairStep (some a) = some c := by
  intro t
  induction t with
  | nil => intro a; exact ⟨a, rfl⟩
  | cons b t2 ih =>
    intro a
    show ∃ c, t2.foldl maxAdjPairStep (maxAdjPairStep (some a) b) = some c
    have hstep : maxAdjPairStep (some a) b =
        if pairKey a ≤ pairKey b then some b else some a := rfl
    rw [hstep]
    by_cases hab : pairKey a ≤ pairKey b
    · rw [if_pos hab]
      exact ih b
    · rw [if_neg hab]
      exact ih a

/-- A histogram with at least two bins always yields an adjacent-pair
maximum (`windows(2)` is nonempty, so the fold starts from its head). -/
theorem maxAdjPair_isSome (l : List ℕ) (h : 2 ≤ l.length) :
    ∃ c, maxAdjPair l = some c := by
  cases l with
  | nil => simp at h
  | cons x t =>
    cases t with
    | nil => simp at h
    | cons y t2 =>
      show ∃ c, (enumFrom 0 ((x :: y :: t2).zip (y :: t2))).foldl
        maxAdjPairStep none = some c
      show ∃ c, (enumFrom 1 ((y :: t2).zip t2)).foldl
        maxAdjPairStep (some (0, (x, y))) = some c
      exact foldl_maxAdjPairStep_some _ _

/-- Unfolding of `Analyzer::frequency` once the histogram and the
adjacent-pair maximum are known. -/
theorem analyzerFrequency_ok (fr w : ℕ) (votes : List (Option ℕ))
    (binsCount : List ℕ) (hb : buildBins (w / 2) votes = .ok binsCount)
    (k c1 c2 : ℕ) (hm : maxAdjPair binsCount = some (k, (c1, c2))) :
    analyzerFrequency fr w votes =
      if minOscillatorsAgreement <
          ((c1 + c2 : ℕ) : ℚ) / ((binsCount.sum : ℕ) : ℚ) then
        .ok (some (binToFrequency fr w k * ((c1 : ℚ) / ((c1 + c2 : ℕ) : ℚ)) +
          binToFrequency fr w (k + 1) * ((c2 : ℚ) / ((c1 + c2 : ℕ) : ℚ))))
      else .ok none := by
  unfold analyzerFrequency
  simp only [hb, hm]

/-- C6.  With at least two histogram bins (`W ≥ 4`; for smaller windows
the code panics on `unwrap`): when every oscillator vote is "unknown"
the Analyzer returns "unknown" (the agreement test computes `0/0`,
which compares false against the ratio, `NaN` in `f32` and `0` here);
and when all `N ≥ 1` oscillators vote the same in-range bin `k`, the
Analyzer returns exactly `f(k) = k · frame_rate / W`. -/
theorem analyzer_frequency_consensus (fr w N k : ℕ)
    (votes : List (Option ℕ)) (hw : 4 ≤ w) :
    ((∀ v ∈ votes, v = none) → analyzerFrequency fr w votes = .ok none) ∧
    (1 ≤ k → k < w / 2 → 1 ≤ N →
      analyzerFrequency fr w (List.replicate N (some k)) =
        .ok (some (binToFrequency fr w k))) := by
  have hm2 : 2 ≤ w / 2 := by omega
  constructor
  · intro hv
    have hb := buildBins_allNone (w / 2) votes hv
    obtain ⟨⟨k0, c1, c2⟩, hc⟩ := maxAdjPair_isSome (List.replicate (w / 2) 0)
      (by simpa using hm2)
    rw [analyzerFrequency_ok fr w votes _ hb k0 c1 c2 hc]
    rw [if_neg]
    rw [replicate_sum_zero]
    norm_num [minOscillatorsAgreement]
  · intro hk1 hk2 hN
    have hb := buildBins_replicate (w / 2) N k hk2
    have hlen : ((List.replicate (w / 2) 0).set k N).length = w / 2 := by
      simp
    obtain ⟨⟨k0, c1, c2⟩, hc⟩ :=
      maxAdjPair_isSome ((List.replicate (w / 2) 0).set k N) (by omega)
    have hs := maxAdjPair_spec _ k0 c1 c2 hc
    have hget : ∀ j, j < w / 2 →
        ((List.replicate (w / 2) 0).set k N).get? j =
          some (if j = k then N else 0) :=
      fun j hj => replicate_set_get? (w / 2) k N j hj
    have hk0size : k0 + 1 < w / 2 := by
      obtain ⟨hh, -⟩ := List.get?_eq_some.mp hs.2.1
      omega
    have hc1 : c1 = if k0 = k then N else 0 := by
      have h1 := hs.1
      rw [hget k0 (by omega)] at h1
      injection h1 with h1
      exact h1.symm
    have hc2 : c2 = if k0 + 1 = k then N else 0 := by
      have h1 := hs.2.1
      rw [hget (k0 + 1) (by omega)] at h1
      injection h1 with h1
      exact h1.symm
    have hmax := hs.2.2
    have hsumN : ((List.replicate (w / 2) 0).set k N).sum = N :=
      replicate_set_sum (w / 2) k N hk2
    have hNQ : ((N : ℕ) : ℚ) ≠ 0 := Nat.cast_ne_zero.mpr (by omega)
    by_cases hcase : k + 1 < w / 2
    · -- the voted bin has a successor pair: the pair (k, k+1) is chosen
      have ha : ((List.replicate (w / 2) 0).set k N).get? k = some N := by
        rw [hget k (by omega)]
        simp
      have hb2 : ((List.replicate (w / 2) 0).set k N).get? (k + 1)
          = some 0 := by
        rw [hget (k + 1) hcase, if_neg (by omega)]
      have hple := hmax k N 0 ha hb2
      have hsum : c1 + c2 = N := by
        have hub : c1 + c2 ≤ N := by
          rw [hc1, hc2]
          by_cases h1 : k0 = k <;> by_cases h2 : k0 + 1 = k <;>
            simp [h1, h2] <;> omega
        have := hple.1
        omega
      have hkk0 : k ≤ k0 := hple.2 (by omega)
      have hk0 : k0 = k := by
        rw [hc1, hc2] at hsum
        by_cases h1 : k0 = k
        · exact h1
        · by_cases h2 : k0 + 1 = k
          · omega
          · simp [h1, h2] at hsum
            omega
      have hc1v : c1 = N := by rw [hc1, if_pos hk0]
      have hc2v : c2 = 0 := by rw [hc2, if_neg (by omega)]
      rw [analyzerFrequency_ok fr w _ _ hb k0 c1 c2 hc, hc1v, hc2v, hsumN,
        hk0]
      rw [if_pos]
      · rw [Nat.add_zero]
        rw [div_self hNQ]
        norm_num
      · rw [Nat.add_zero, div_self hNQ]
        norm_num [minOscillatorsAgreement]
    · -- the voted bin is the last one: the pair (k-1, k) is chosen
      have hkm : k + 1 = w / 2 := by omega
      have ha : ((List.replicate (w / 2) 0).set k N).get? (k - 1)
          = some 0 := by
        rw [hget (k - 1) (by omega), if_neg (by omega)]
      have hb2 : ((List.replicate (w / 2) 0).set k N).get? ((k - 1) + 1)
          = some N := by
        have he : (k - 1) + 1 = k := by omega
        rw [he, hget k (by omega)]
        simp
      have hple := hmax (k - 1) 0 N ha hb2
      have hsum : c1 + c2 = N := by
        have hub : c1 + c2 ≤ N := by
          rw [hc1, hc2]
          by_cases h1 : k0 = k <;> by_cases h2 : k0 + 1 = k <;>
            simp [h1, h2] <;> omega
        have := hple.1
        omega
      have hk0 : k0 + 1 = k := by
        rw [hc1, hc2] at hsum
        by_cases h2 : k0 + 1 = k
        · exact h2
        · by_cases h1 : k0 = k
          · omega
          · simp [h1, h2] at hsum
            omega
      have hc1v : c1 = 0 := by rw [hc1, if_neg (by omega)]
      have hc2v : c2 = N := by rw [hc2, if_pos hk0]
      rw [analyzerFrequency_ok fr w _ _ hb k0 c1 c2 hc, hc1v, hc2v, hsumN,
        hk0]
      rw [if_pos]
      · rw [Nat.zero_add]
        rw [div_self hNQ]
        norm_num
      · rw [Nat.zero_add, div_self hNQ]
        norm_num [minOscillatorsAgreement]

/-- C6 witness: at `frame_rate = 30`, `W = 8`, two silent oscillators
give "unknown", and three oscillators all voting bin 2 give exactly
`f(2) = 2 · 30 / 8`. -/
theorem analyzer_frequency_consensus_witness :
    analyzerFrequency 30 8 [none, none] = .ok none ∧
    analyzerFrequency 30 8 (List.replicate 3 (some 2)) =
      .ok (some (binToFrequency 30 8 2)) := by
  have h := analyzer_frequency_consensus 30 8 3 2 [none, none] (by norm_num)
  exact ⟨h.1 (by decide), h.2 (by norm_num) (by norm_num) (by norm_num)⟩
